import Mathlib

/-!
Verification of the two binary-patching tools of this repository:
`scripts/patch_glibc_seccomp.py` (instruction scanner/patcher) and
`scripts/patch_vortek_socket_path.py` (substring path patcher).

Buffers are modelled as `List Nat` of byte values; a 4-byte little-endian
instruction word is the sublist `(data.drop off).take 4`.
-/

set_option maxHeartbeats 1000000

/-- Little-endian packing of a 32-bit value into 4 bytes, as
`struct.pack` with spec string for a little-endian unsigned 32-bit int does. -/
def packLE (n : Nat) : List Nat :=
  [n % 256, n / 256 % 256, n / 65536 % 256, n / 16777216 % 256]

/-- Little-endian unpacking of a 4-byte word, as `struct.unpack` does. -/
def unpackLE (bs : List Nat) : Nat :=
  bs.getD 0 0 + bs.getD 1 0 * 256 + bs.getD 2 0 * 65536 + bs.getD 3 0 * 16777216

/-- The 4-byte word of `data` at `off`: `data[off:off+4]`. -/
def word (data : List Nat) (off : Nat) : List Nat :=
  (data.drop off).take 4

/-- In-place overwrite of the 4-byte slice at `off`: `data[off:off+4] = w`. -/
def writeWord (data : List Nat) (off : Nat) (w : List Nat) : List Nat :=
  data.take off ++ w ++ data.drop (off + 4)

namespace Glibc

/-- `svc #0` encoding, bytes of the source constant `SVC_0`. -/
def SVC_0 : List Nat := [0x01, 0x00, 0x00, 0xd4]

/-- `movn x0, #37` encoding, bytes of the source constant `MOVN_X0_37`. -/
def MOVN_X0_37 : List Nat := [0xa0, 0x04, 0x80, 0x92]

/-- The syscall target table `BLOCKED_SYSCALLS` (number, display name). -/
def BLOCKED_SYSCALLS : List (Nat × String) :=
  [(99, "set_robust_list"), (293, "rseq")]

/-- `encode_movz_x8`: MOVZ X8, #imm16 as 4 little-endian bytes. -/
def encode_movz_x8 (imm16 : Nat) : List Nat :=
  packLE ((0b11010010100 <<< 21) ||| (imm16 <<< 5) ||| 8)

/-- The `targets` lookup table: anchor byte pattern to (number, name). -/
def targets : List (List Nat × Nat × String) :=
  BLOCKED_SYSCALLS.map fun p => (encode_movz_x8 p.1, p)

/-- Dictionary lookup `targets[prev]` (with `prev in targets` as `isSome`). -/
def lookupTarget (prev : List Nat) : Option (Nat × String) :=
  (targets.find? fun t => t.1 == prev).map fun t => t.2

/-- One match of the correlator: trap offset, anchor offset, instruction
distance, syscall number and name (the data of the per-match report line). -/
structure MatchRecord where
  trap : Nat
  anchor : Nat
  back : Nat
  nr : Nat
  name : String
deriving Repr, DecidableEq

/-- The backward search of the scanner, from `back` with `fuel` iterations
left (the source runs `back` over 1..16).  Returns anchor offset, distance
and table entry on success. -/
def scanBack (data : List Nat) (off : Nat) : Nat → Nat → Option (Nat × Nat × Nat × String)
  | _, 0 => none
  | b, fuel + 1 =>
    if off < b * 4 then
      none
    else
      match lookupTarget (word data (off - b * 4)) with
      | some (nr, name) => some (off - b * 4, b, nr, name)
      | none =>
        if unpackLE (word data (off - b * 4)) &&& 0xFFE0001F = 0xD2800008 then
          none
        else if unpackLE (word data (off - b * 4)) >>> 26 = 0x05 ∨
            unpackLE (word data (off - b * 4)) >>> 26 = 0x25 ∨
            unpackLE (word data (off - b * 4)) >>> 26 = 0x6B then
          none
        else
          scanBack data off (b + 1) fuel

/-- The 4-byte-aligned scan offsets `range(4, len(data) - 3, 4)`. -/
def offsets (n : Nat) : List Nat :=
  List.range' 4 ((n - 4) / 4) 4

/-- Buffer plus accumulated found during a scan. -/
structure ScanState where
  data : List Nat
  found : List MatchRecord
deriving Repr, DecidableEq

/-- One iteration of the scan loop at a given offset: on `svc #0`, run the
backward search; on success overwrite the trap with `MOVN_X0_37` and record
the match. -/
def stepOffset (s : ScanState) (off : Nat) : ScanState :=
  if word s.data off = SVC_0 then
    match scanBack s.data off 1 16 with
    | some (prev_off, back, nr, name) =>
      { data := writeWord s.data off MOVN_X0_37,
        found := s.found ++ [⟨off, prev_off, back, nr, name⟩] }
    | none => s
  else
    s

/-- The buffer transform of `patch_binary`: scan all aligned offsets,
patching as we go; `total_patches` is the length of `found`. -/
def patch_binary (data : List Nat) : ScanState :=
  (offsets data.length).foldl stepOffset ⟨data, []⟩

/-- `d₂` is `d₁` with some aligned `svc #0` words rewritten to the
fail-with-ENOSYS word: the shape of intermediate scan buffers relative to
earlier ones. -/
def Patched (d₁ d₂ : List Nat) : Prop :=
  d₂.length = d₁.length ∧
    ∀ o : Nat, o % 4 = 0 →
      word d₂ o = word d₁ o ∨ (word d₁ o = SVC_0 ∧ word d₂ o = MOVN_X0_37)

/-- Scan-loop invariant of `patch_binary` relative to the input buffer
`data0`: length is preserved, bytes outside recorded trap words are
untouched, aligned words away from the recorded traps are untouched, each
recorded trap holds the fail word, each recorded anchor is an untouched
target pattern, and recorded trap offsets strictly increase. -/
def Inv (data0 : List Nat) (s : ScanState) : Prop :=
  s.data.length = data0.length ∧
    (∀ i : Nat, (∀ m ∈ s.found, i < m.trap ∨ m.trap + 4 ≤ i) → s.data[i]? = data0[i]?) ∧
    (∀ o : Nat, o % 4 = 0 → (∀ m ∈ s.found, o ≠ m.trap) → word s.data o = word data0 o) ∧
    (∀ m ∈ s.found, m.trap % 4 = 0 ∧ 4 ≤ m.trap ∧ m.trap + 4 ≤ data0.length ∧
      word s.data m.trap = MOVN_X0_37) ∧
    (∀ m ∈ s.found, m.anchor % 4 = 0 ∧ m.anchor < m.trap ∧
      word s.data m.anchor = word data0 m.anchor ∧
      (word s.data m.anchor = encode_movz_x8 99 ∨ word s.data m.anchor = encode_movz_x8 293)) ∧
    (s.found.map MatchRecord.trap).Pairwise (· < ·)

end Glibc

/-- A file plus the state of its derived `.orig` backup path
(`none` when no backup file exists). -/
structure FileState where
  main : List Nat
  backup : Option (List Nat)
deriving Repr, DecidableEq

namespace Glibc

/-- The file-level behaviour of `patch_binary`: on zero patches, no write
and no backup (returns `false`); otherwise create the backup only if it
does not already exist, then write the patched buffer back. -/
def patch_file (fs : FileState) : FileState × Bool :=
  if (patch_binary fs.main).found.length = 0 then
    (fs, false)
  else
    ({ main := (patch_binary fs.main).data,
       backup := match fs.backup with
         | some b => some b
         | none => some fs.main }, true)

end Glibc

namespace Vortek

/-- Byte values of an ASCII string constant. -/
def strBytes (s : String) : List Nat := s.data.map Char.toNat

/-- `OLD_SOCKET` path bytes. -/
def OLD_SOCKET : List Nat := strBytes "/data/data/com.winlator/files/rootfs/tmp/.vortek/V0"

/-- `NEW_SOCKET` path bytes. -/
def NEW_SOCKET : List Nat := strBytes "/data/data/com.mediatek.steamlauncher/V0"

/-- `OLD_RUNPATH` path bytes. -/
def OLD_RUNPATH : List Nat := strBytes "/data/data/com.winlator/files/rootfs/lib"

/-- `NEW_RUNPATH` bytes (empty: RUNPATH is nulled out). -/
def NEW_RUNPATH : List Nat := []

/-- Does `pat` occur at the head of `l`?  (`bytes.startswith` shape used by
`bytes.count` and `bytes.replace`.) -/
def hasPrefix : List Nat → List Nat → Bool
  | [], _ => true
  | _ :: _, [] => false
  | a :: as, b :: bs => a == b && hasPrefix as bs

/-- Fuel-driven core of Python `bytes.count(old)`: non-overlapping
left-to-right occurrence count, for non-empty `old`. -/
def bytesCountAux (old : List Nat) : Nat → List Nat → Nat
  | 0, _ => 0
  | _ + 1, [] => 0
  | fuel + 1, b :: rest =>
    if hasPrefix old (b :: rest) && !old.isEmpty then
      1 + bytesCountAux old fuel (rest.drop (old.length - 1))
    else
      bytesCountAux old fuel rest

/-- `data.count(old)` for non-empty `old`. -/
def bytesCount (old data : List Nat) : Nat :=
  bytesCountAux old data.length data

/-- Fuel-driven core of Python `bytes.replace(old, rep)`: replace each
non-overlapping occurrence left to right, for non-empty `old`. -/
def bytesReplaceAux (old rep : List Nat) : Nat → List Nat → List Nat
  | 0, l => l
  | _ + 1, [] => []
  | fuel + 1, b :: rest =>
    if hasPrefix old (b :: rest) && !old.isEmpty then
      rep ++ bytesReplaceAux old rep fuel (rest.drop (old.length - 1))
    else
      b :: bytesReplaceAux old rep fuel rest

/-- `data.replace(old, rep)` for non-empty `old`. -/
def bytesReplace (old rep data : List Nat) : List Nat :=
  bytesReplaceAux old rep data.length data

/-- The buffer transform of the substring patcher's `patch_binary`:
`none` models the `sys.exit(1)` of the length-precondition failure.
Note the source checks `count == 0` (early unchanged return) before the
length precondition. -/
def patch_binary (data old new : List Nat) : Option (List Nat) :=
  if bytesCount old data = 0 then
    some data
  else if old.length < new.length then
    none
  else
    some (bytesReplace old (new ++ List.replicate (old.length - new.length) 0) data)

/-- The file-level `patch_file`: apply the socket-path patch then the
RUNPATH patch, then write back; no backup file is ever touched.
`none` models `sys.exit(1)` aborting before the write. -/
def patch_file (fs : FileState) : Option FileState :=
  match patch_binary fs.main OLD_SOCKET NEW_SOCKET with
  | none => none
  | some d1 =>
    match patch_binary d1 OLD_RUNPATH NEW_RUNPATH with
    | none => none
    | some d2 => some { main := d2, backup := fs.backup }

end Vortek


section WordLemmas

theorem word_length (d : List Nat) (o : Nat) : (word d o).length = min 4 (d.length - o) := by
  simp [word]

theorem bound_of_word_eq {d w : List Nat} {o : Nat} (hw : w.length = 4)
    (h : word d o = w) : o + 4 ≤ d.length := by
  have := word_length d o
  rw [h, hw] at this
  omega

theorem getElem?_word (d : List Nat) (o j : Nat) :
    (word d o)[j]? = if j < 4 then d[o + j]? else none := by
  rw [word, List.getElem?_take, List.getElem?_drop]

theorem word_congr {d d' : List Nat} {o : Nat}
    (h : ∀ j, j < 4 → d[o + j]? = d'[o + j]?) : word d o = word d' o := by
  apply List.ext_getElem?
  intro j
  rw [getElem?_word, getElem?_word]
  by_cases hj : j < 4
  · simp [hj, h j hj]
  · simp [hj]

theorem length_writeWord {d w : List Nat} {o : Nat} (hw : w.length = 4)
    (h : o + 4 ≤ d.length) : (writeWord d o w).length = d.length := by
  simp [writeWord, hw]
  omega

theorem getElem?_writeWord_outside {d w : List Nat} {o : Nat} (hw : w.length = 4)
    (h : o + 4 ≤ d.length) (i : Nat) (hi : i < o ∨ o + 4 ≤ i) :
    (writeWord d o w)[i]? = d[i]? := by
  have hto : (d.take o).length = o := by
    simp
    omega
  rw [writeWord, List.append_assoc]
  rcases hi with hi | hi
  · rw [List.getElem?_append_left (by omega), List.getElem?_take]
    simp [hi]
  · rw [List.getElem?_append_right (by omega), hto,
      List.getElem?_append_right (by omega), hw, List.getElem?_drop]
    congr 1
    omega

theorem getElem?_writeWord_inside {d w : List Nat} {o : Nat} (hw : w.length = 4)
    (h : o + 4 ≤ d.length) (i : Nat) (hi₁ : o ≤ i) (hi₂ : i < o + 4) :
    (writeWord d o w)[i]? = w[i - o]? := by
  have hto : (d.take o).length = o := by
    simp
    omega
  rw [writeWord, List.append_assoc, List.getElem?_append_right (by omega), hto,
    List.getElem?_append_left (by omega)]

theorem word_writeWord_self {d w : List Nat} {o : Nat} (hw : w.length = 4)
    (h : o + 4 ≤ d.length) : word (writeWord d o w) o = w := by
  apply List.ext_getElem?
  intro j
  rw [getElem?_word]
  by_cases hj : j < 4
  · rw [if_pos hj, getElem?_writeWord_inside hw h (o + j) (by omega) (by omega)]
    congr 1
    omega
  · rw [if_neg hj]
    have : w.length ≤ j := by omega
    simp [List.getElem?_eq_none this]

theorem word_writeWord_other {d w : List Nat} {o o' : Nat} (hw : w.length = 4)
    (h : o + 4 ≤ d.length) (ha : o % 4 = 0) (ha' : o' % 4 = 0) (hne : o' ≠ o) :
    word (writeWord d o w) o' = word d o' := by
  apply word_congr
  intro j hj
  apply getElem?_writeWord_outside hw h
  omega

theorem word_append_left {pre post : List Nat} (h : pre.length = 4) :
    word (pre ++ post) 0 = pre := by
  rw [word, List.drop_zero, List.take_append_of_le_length (by omega), ← h, List.take_length]

theorem word_append_right (pre post : List Nat) :
    word (pre ++ post) pre.length = post.take 4 := by
  rw [word, List.drop_left]

end WordLemmas

section OffsetLemmas

theorem mem_offsets {n o : Nat} :
    o ∈ Glibc.offsets n ↔ o % 4 = 0 ∧ 4 ≤ o ∧ o + 4 ≤ n := by
  rw [Glibc.offsets, List.mem_range']
  constructor
  · rintro ⟨i, hi, rfl⟩
    omega
  · intro h
    exact ⟨(o - 4) / 4, by omega, by omega⟩

theorem pairwise_offsets (n : Nat) : (Glibc.offsets n).Pairwise (· < ·) :=
  List.pairwise_lt_range' 4 ((n - 4) / 4) 4 (by norm_num)

end OffsetLemmas

namespace Glibc

section TargetLemmas

theorem lookupTarget_none_of {w : List Nat} (h99 : w ≠ encode_movz_x8 99)
    (h293 : w ≠ encode_movz_x8 293) : lookupTarget w = none := by
  have b99 : (encode_movz_x8 99 == w) = false :=
    beq_eq_false_iff_ne.mpr (Ne.symm h99)
  have b293 : (encode_movz_x8 293 == w) = false :=
    beq_eq_false_iff_ne.mpr (Ne.symm h293)
  simp [lookupTarget, targets, BLOCKED_SYSCALLS, List.find?, b99, b293]

theorem lookupTarget_e99 : lookupTarget (encode_movz_x8 99) = some (99, "set_robust_list") := by
  decide

theorem lookupTarget_e293 : lookupTarget (encode_movz_x8 293) = some (293, "rseq") := by
  decide

theorem lookupTarget_some_cases {w : List Nat} {x : Nat × String}
    (h : lookupTarget w = some x) :
    (w = encode_movz_x8 99 ∧ x = (99, "set_robust_list")) ∨
      (w = encode_movz_x8 293 ∧ x = (293, "rseq")) := by
  by_cases h99 : w = encode_movz_x8 99
  · subst h99
    rw [lookupTarget_e99] at h
    exact Or.inl ⟨rfl, (Option.some_inj.mp h).symm⟩
  · by_cases h293 : w = encode_movz_x8 293
    · subst h293
      rw [lookupTarget_e293] at h
      exact Or.inr ⟨rfl, (Option.some_inj.mp h).symm⟩
    · rw [lookupTarget_none_of h99 h293] at h
      cases h

theorem mask_e99 : unpackLE (encode_movz_x8 99) &&& 0xFFE0001F = 0xD2800008 := by decide

theorem mask_e293 : unpackLE (encode_movz_x8 293) &&& 0xFFE0001F = 0xD2800008 := by decide

theorem lookupTarget_none_of_mask {w : List Nat}
    (hm : unpackLE w &&& 0xFFE0001F ≠ 0xD2800008) : lookupTarget w = none :=
  lookupTarget_none_of (fun h => hm (by rw [h]; decide)) (fun h => hm (by rw [h]; decide))

theorem svc_not_sentinel :
    lookupTarget SVC_0 = none ∧
      unpackLE SVC_0 &&& 0xFFE0001F ≠ 0xD2800008 ∧
      ¬(unpackLE SVC_0 >>> 26 = 0x05 ∨ unpackLE SVC_0 >>> 26 = 0x25 ∨
        unpackLE SVC_0 >>> 26 = 0x6B) := by
  decide

theorem movn_not_sentinel :
    lookupTarget MOVN_X0_37 = none ∧
      unpackLE MOVN_X0_37 &&& 0xFFE0001F ≠ 0xD2800008 ∧
      ¬(unpackLE MOVN_X0_37 >>> 26 = 0x05 ∨ unpackLE MOVN_X0_37 >>> 26 = 0x25 ∨
        unpackLE MOVN_X0_37 >>> 26 = 0x6B) := by
  decide

theorem movn_ne_svc : MOVN_X0_37 ≠ SVC_0 := by decide

theorem svc_length : SVC_0.length = 4 := by decide

theorem movn_length : MOVN_X0_37.length = 4 := by decide

end TargetLemmas

section ScanBackLemmas

theorem scanBack_zero (d : List Nat) (off b : Nat) : scanBack d off b 0 = none := rfl

theorem scanBack_oob {d : List Nat} {off b f : Nat} (h : off < b * 4) :
    scanBack d off b (f + 1) = none := by
  simp only [scanBack]
  rw [if_pos h]

theorem scanBack_hit {d : List Nat} {off b f nr : Nat} {name : String} (hb : ¬ off < b * 4)
    (ht : lookupTarget (word d (off - b * 4)) = some (nr, name)) :
    scanBack d off b (f + 1) = some (off - b * 4, b, nr, name) := by
  simp only [scanBack]
  rw [if_neg hb, ht]

theorem scanBack_step {d : List Nat} {off b f : Nat} (hb : ¬ off < b * 4)
    (ht : lookupTarget (word d (off - b * 4)) = none)
    (hm : ¬ unpackLE (word d (off - b * 4)) &&& 0xFFE0001F = 0xD2800008)
    (hbr : ¬(unpackLE (word d (off - b * 4)) >>> 26 = 0x05 ∨
      unpackLE (word d (off - b * 4)) >>> 26 = 0x25 ∨
      unpackLE (word d (off - b * 4)) >>> 26 = 0x6B)) :
    scanBack d off b (f + 1) = scanBack d off (b + 1) f := by
  simp only [scanBack]
  rw [if_neg hb, ht]
  simp only [hm, hbr, if_neg, ite_false]

theorem scanBack_some_spec {d : List Nat} {off : Nat} {r : Nat × Nat × Nat × String} :
    ∀ {f b : Nat}, scanBack d off b f = some r →
      b ≤ r.2.1 ∧ r.2.1 * 4 ≤ off ∧ r.1 = off - r.2.1 * 4 ∧
        lookupTarget (word d r.1) = some (r.2.2.1, r.2.2.2)
  | 0, b, h => by cases h
  | f + 1, b, h => by
    by_cases hb : off < b * 4
    · rw [scanBack_oob hb] at h
      cases h
    · revert h
      simp only [scanBack]
      rw [if_neg hb]
      cases ht : lookupTarget (word d (off - b * 4)) with
      | some x =>
        intro h
        cases x with
        | mk nr name =>
          cases h
          exact ⟨Nat.le_refl b, show b * 4 ≤ off by omega, rfl, ht⟩
      | none =>
        intro h
        by_cases hm : unpackLE (word d (off - b * 4)) &&& 0xFFE0001F = 0xD2800008
        · rw [if_pos hm] at h
          cases h
        · rw [if_neg hm] at h
          by_cases hbr : unpackLE (word d (off - b * 4)) >>> 26 = 0x05 ∨
              unpackLE (word d (off - b * 4)) >>> 26 = 0x25 ∨
              unpackLE (word d (off - b * 4)) >>> 26 = 0x6B
          · rw [if_pos hbr] at h
            cases h
          · rw [if_neg hbr] at h
            have := scanBack_some_spec h
            exact ⟨by omega, this.2.1, this.2.2.1, this.2.2.2⟩

end ScanBackLemmas

end Glibc

namespace Glibc

section PatchedLemmas

theorem Patched.refl (d : List Nat) : Patched d d :=
  ⟨rfl, fun _ _ => Or.inl rfl⟩

theorem Patched.trans {d₁ d₂ d₃ : List Nat} (h₁ : Patched d₁ d₂) (h₂ : Patched d₂ d₃) :
    Patched d₁ d₃ := by
  refine ⟨h₂.1.trans h₁.1, fun o ho => ?_⟩
  rcases h₂.2 o ho with he | ⟨hs, hm⟩
  · rcases h₁.2 o ho with he' | ⟨hs', hm'⟩
    · exact Or.inl (he.trans he')
    · exact Or.inr ⟨hs', he.trans hm'⟩
  · rcases h₁.2 o ho with he' | ⟨hs', hm'⟩
    · exact Or.inr ⟨he'.symm.trans hs, hm⟩
    · exact absurd (hm'.symm.trans hs) movn_ne_svc

/-- Full case analysis of one loop iteration. -/
theorem stepOffset_scan_cases (s : ScanState) (off : Nat) :
    (word s.data off ≠ SVC_0 ∧ stepOffset s off = s) ∨
      (word s.data off = SVC_0 ∧ scanBack s.data off 1 16 = none ∧ stepOffset s off = s) ∨
      (word s.data off = SVC_0 ∧ ∃ a bk nr nm, scanBack s.data off 1 16 = some (a, bk, nr, nm) ∧
        (stepOffset s off).data = writeWord s.data off MOVN_X0_37 ∧
        (stepOffset s off).found = s.found ++ [⟨off, a, bk, nr, nm⟩]) := by
  by_cases hw : word s.data off = SVC_0
  · cases hscan : scanBack s.data off 1 16 with
    | none =>
      refine Or.inr (Or.inl ⟨hw, rfl, ?_⟩)
      unfold stepOffset
      rw [if_pos hw, hscan]
    | some r =>
      obtain ⟨a, bk, nr, nm⟩ := r
      refine Or.inr (Or.inr ⟨hw, a, bk, nr, nm, rfl, ?_, ?_⟩) <;>
        · unfold stepOffset
          rw [if_pos hw, hscan]
  · refine Or.inl ⟨hw, ?_⟩
    unfold stepOffset
    rw [if_neg hw]

theorem stepOffset_data_cases (s : ScanState) (off : Nat) :
    (stepOffset s off).data = s.data ∨
      (word s.data off = SVC_0 ∧
        (stepOffset s off).data = writeWord s.data off MOVN_X0_37) := by
  rcases stepOffset_scan_cases s off with ⟨_, h⟩ | ⟨_, _, h⟩ | ⟨hw, _, _, _, _, _, h, _⟩
  · exact Or.inl (by rw [h])
  · exact Or.inl (by rw [h])
  · exact Or.inr ⟨hw, h⟩

theorem Patched.step (s : ScanState) (off : Nat) (ho : off % 4 = 0) :
    Patched s.data ((stepOffset s off).data) := by
  rcases stepOffset_data_cases s off with h | ⟨hw, h⟩
  · rw [h]
    exact Patched.refl _
  · rw [h]
    have hb : off + 4 ≤ s.data.length := bound_of_word_eq svc_length hw
    refine ⟨length_writeWord movn_length hb, fun o hoa => ?_⟩
    by_cases he : o = off
    · subst he
      exact Or.inr ⟨hw, word_writeWord_self movn_length hb⟩
    · exact Or.inl (word_writeWord_other movn_length hb ho hoa he)

theorem Patched.fold (offs : List Nat) (s : ScanState) (ha : ∀ o ∈ offs, o % 4 = 0) :
    Patched s.data ((offs.foldl stepOffset s).data) := by
  induction offs generalizing s with
  | nil => exact Patched.refl _
  | cons o rest ih =>
    simp only [List.foldl_cons]
    exact (Patched.step s o (ha o (List.mem_cons_self o rest))).trans
      (ih (stepOffset s o) fun o' h' => ha o' (List.mem_cons_of_mem o h'))

end PatchedLemmas

section ScanBackCongr

theorem scanBack_mask_stop {d : List Nat} {off b f : Nat} (hb : ¬ off < b * 4)
    (ht : lookupTarget (word d (off - b * 4)) = none)
    (hm : unpackLE (word d (off - b * 4)) &&& 0xFFE0001F = 0xD2800008) :
    scanBack d off b (f + 1) = none := by
  simp only [scanBack]
  rw [if_neg hb, ht]
  simp [hm]

theorem scanBack_branch_stop {d : List Nat} {off b f : Nat} (hb : ¬ off < b * 4)
    (ht : lookupTarget (word d (off - b * 4)) = none)
    (hm : ¬ unpackLE (word d (off - b * 4)) &&& 0xFFE0001F = 0xD2800008)
    (hbr : unpackLE (word d (off - b * 4)) >>> 26 = 0x05 ∨
      unpackLE (word d (off - b * 4)) >>> 26 = 0x25 ∨
      unpackLE (word d (off - b * 4)) >>> 26 = 0x6B) :
    scanBack d off b (f + 1) = none := by
  simp only [scanBack]
  rw [if_neg hb, ht]
  simp [hm, hbr]

/-- Rewriting patched `svc #0` words to the fail word never changes a
backward search: neither word is a target, a register-8 load, or a
recognized branch. -/
theorem scanBack_congr {d₁ d₂ : List Nat} (hp : Patched d₁ d₂) {off : Nat}
    (ho : off % 4 = 0) : ∀ f b, scanBack d₂ off b f = scanBack d₁ off b f := by
  intro f
  induction f with
  | zero => intro b; rfl
  | succ f ih =>
    intro b
    by_cases hb : off < b * 4
    · rw [scanBack_oob hb, scanBack_oob hb]
    · have hpo : (off - b * 4) % 4 = 0 := by omega
      rcases hp.2 (off - b * 4) hpo with heq | ⟨hs, hm⟩
      · simp only [scanBack, heq, ih]
      · have A1 : lookupTarget (word d₂ (off - b * 4)) = none := by
          rw [hm]
          exact movn_not_sentinel.1
        have A2 : ¬ unpackLE (word d₂ (off - b * 4)) &&& 0xFFE0001F = 0xD2800008 := by
          rw [hm]
          exact movn_not_sentinel.2.1
        have A3 : ¬(unpackLE (word d₂ (off - b * 4)) >>> 26 = 0x05 ∨
            unpackLE (word d₂ (off - b * 4)) >>> 26 = 0x25 ∨
            unpackLE (word d₂ (off - b * 4)) >>> 26 = 0x6B) := by
          rw [hm]
          exact movn_not_sentinel.2.2
        have B1 : lookupTarget (word d₁ (off - b * 4)) = none := by
          rw [hs]
          exact svc_not_sentinel.1
        have B2 : ¬ unpackLE (word d₁ (off - b * 4)) &&& 0xFFE0001F = 0xD2800008 := by
          rw [hs]
          exact svc_not_sentinel.2.1
        have B3 : ¬(unpackLE (word d₁ (off - b * 4)) >>> 26 = 0x05 ∨
            unpackLE (word d₁ (off - b * 4)) >>> 26 = 0x25 ∨
            unpackLE (word d₁ (off - b * 4)) >>> 26 = 0x6B) := by
          rw [hs]
          exact svc_not_sentinel.2.2
        rw [scanBack_step hb A1 A2 A3, scanBack_step hb B1 B2 B3]
        exact ih (b + 1)

end ScanBackCongr

section IdempotenceLemmas

theorem foldl_noop (offs : List Nat) (s : ScanState)
    (h : ∀ o ∈ offs, word s.data o = SVC_0 → scanBack s.data o 1 16 = none) :
    offs.foldl stepOffset s = s := by
  induction offs with
  | nil => rfl
  | cons o rest ih =>
    have hstep : stepOffset s o = s := by
      unfold stepOffset
      by_cases hw : word s.data o = SVC_0
      · rw [if_pos hw, h o (List.mem_cons_self o rest) hw]
      · rw [if_neg hw]
    simp only [List.foldl_cons, hstep]
    exact ih fun o' ho' => h o' (List.mem_cons_of_mem o ho')

theorem final_scan_none (offs : List Nat) (ha : ∀ o ∈ offs, o % 4 = 0) :
    ∀ (s : ScanState), ∀ o ∈ offs, word ((offs.foldl stepOffset s).data) o = SVC_0 →
      scanBack ((offs.foldl stepOffset s).data) o 1 16 = none := by
  induction offs with
  | nil =>
    intro s o ho
    cases ho
  | cons a rest ih =>
    intro s o ho hsvc
    simp only [List.foldl_cons] at hsvc ⊢
    have harest : ∀ o' ∈ rest, o' % 4 = 0 := fun o' h' => ha o' (List.mem_cons_of_mem a h')
    rcases List.mem_cons.mp ho with rfl | hmem
    · have hoa : o % 4 = 0 := ha o (List.mem_cons_self o rest)
      have hpat : Patched ((stepOffset s o).data) ((rest.foldl stepOffset (stepOffset s o)).data) :=
        Patched.fold rest (stepOffset s o) harest
      have hw1 : word ((stepOffset s o).data) o = SVC_0 := by
        rcases hpat.2 o hoa with he | ⟨h1, _⟩
        · rw [← he]
          exact hsvc
        · exact h1
      rcases stepOffset_scan_cases s o with ⟨hne, heq⟩ | ⟨_, hnone, heq⟩ |
          ⟨hw, a', bk, nr, nm, _, hdata, _⟩
      · rw [heq] at hw1
        exact absurd hw1 hne
      · rw [scanBack_congr hpat hoa 16 1, heq]
        exact hnone
      · have hbnd : o + 4 ≤ s.data.length := bound_of_word_eq svc_length hw
        rw [hdata, word_writeWord_self movn_length hbnd] at hw1
        exact absurd hw1 movn_ne_svc
    · exact ih harest (stepOffset s a) o hmem hsvc

end IdempotenceLemmas

end Glibc

namespace Glibc

section InvLemmas

theorem e99_ne_movn : encode_movz_x8 99 ≠ MOVN_X0_37 := by decide

theorem e293_ne_movn : encode_movz_x8 293 ≠ MOVN_X0_37 := by decide

theorem e99_ne_svc : encode_movz_x8 99 ≠ SVC_0 := by decide

theorem e293_ne_svc : encode_movz_x8 293 ≠ SVC_0 := by decide

theorem Inv_step {data0 : List Nat} {s : ScanState} {off : Nat}
    (hinv : Inv data0 s) (ho4 : off % 4 = 0) (h4 : 4 ≤ off)
    (hlt : ∀ m ∈ s.found, m.trap < off) :
    Inv data0 (stepOffset s off) ∧
      ((stepOffset s off).found = s.found ∨
        ∃ mr : MatchRecord, mr.trap = off ∧ (stepOffset s off).found = s.found ++ [mr]) := by
  obtain ⟨hlen, hbyte, hword, htrap, hanc, hpw⟩ := hinv
  rcases stepOffset_scan_cases s off with ⟨_, heq⟩ | ⟨_, _, heq⟩ |
      ⟨hw, a, bk, nr, nm, hscan, hdata, hfound⟩
  · rw [heq]
    exact ⟨⟨hlen, hbyte, hword, htrap, hanc, hpw⟩, Or.inl rfl⟩
  · rw [heq]
    exact ⟨⟨hlen, hbyte, hword, htrap, hanc, hpw⟩, Or.inl rfl⟩
  · have hbnd : off + 4 ≤ s.data.length := bound_of_word_eq svc_length hw
    have hbnd0 : off + 4 ≤ data0.length := by omega
    have hspec := scanBack_some_spec hscan
    have hbk1 : 1 ≤ bk := hspec.1
    have hbk4 : bk * 4 ≤ off := hspec.2.1
    have haeq : a = off - bk * 4 := hspec.2.2.1
    have hlook : lookupTarget (word s.data a) = some (nr, nm) := hspec.2.2.2
    have ha4 : a % 4 = 0 := by omega
    have halt : a < off := by omega
    have htgt : word s.data a = encode_movz_x8 99 ∨ word s.data a = encode_movz_x8 293 := by
      rcases lookupTarget_some_cases hlook with ⟨h, _⟩ | ⟨h, _⟩
      · exact Or.inl h
      · exact Or.inr h
    have hanot : ∀ m ∈ s.found, a ≠ m.trap := by
      intro m hm heqa
      have hmv := (htrap m hm).2.2.2
      rw [← heqa] at hmv
      rcases htgt with h | h
      · exact e99_ne_movn (h.symm.trans hmv)
      · exact e293_ne_movn (h.symm.trans hmv)
    have hwa0 : word s.data a = word data0 a := hword a ha4 hanot
    refine ⟨⟨?_, ?_, ?_, ?_, ?_, ?_⟩, Or.inr ⟨⟨off, a, bk, nr, nm⟩, rfl, hfound⟩⟩
    · rw [hdata]
      exact (length_writeWord movn_length hbnd).trans hlen
    · intro i hi
      rw [hfound] at hi
      have hinew : i < off ∨ off + 4 ≤ i :=
        hi ⟨off, a, bk, nr, nm⟩ (List.mem_append_right _ (List.mem_singleton_self _))
      rw [hdata, getElem?_writeWord_outside movn_length hbnd i hinew]
      exact hbyte i fun m hm => hi m (List.mem_append_left _ hm)
    · intro o ho hno
      rw [hfound] at hno
      have hnoff : o ≠ off :=
        hno ⟨off, a, bk, nr, nm⟩ (List.mem_append_right _ (List.mem_singleton_self _))
      rw [hdata, word_writeWord_other movn_length hbnd ho4 ho hnoff]
      exact hword o ho fun m hm => hno m (List.mem_append_left _ hm)
    · intro m hm
      rw [hfound] at hm
      rcases List.mem_append.mp hm with hm | hm
      · obtain ⟨t4, t4le, tle, tw⟩ := htrap m hm
        have hne : m.trap ≠ off := Nat.ne_of_lt (hlt m hm)
        refine ⟨t4, t4le, tle, ?_⟩
        rw [hdata, word_writeWord_other movn_length hbnd ho4 t4 hne]
        exact tw
      · have hmeq : m = ⟨off, a, bk, nr, nm⟩ := by simpa using hm
        subst hmeq
        refine ⟨ho4, h4, hbnd0, ?_⟩
        rw [hdata]
        exact word_writeWord_self movn_length hbnd
    · intro m hm
      rw [hfound] at hm
      rcases List.mem_append.mp hm with hm | hm
      · obtain ⟨a4, alt, aw0, atgt⟩ := hanc m hm
        have hne : m.anchor ≠ off := by
          intro he
          rw [he] at atgt
          rcases atgt with h | h
          · exact e99_ne_svc (h.symm.trans hw)
          · exact e293_ne_svc (h.symm.trans hw)
        refine ⟨a4, alt, ?_, ?_⟩
        · rw [hdata, word_writeWord_other movn_length hbnd ho4 a4 hne]
          exact aw0
        · rw [hdata, word_writeWord_other movn_length hbnd ho4 a4 hne]
          exact atgt
      · have hmeq : m = ⟨off, a, bk, nr, nm⟩ := by simpa using hm
        subst hmeq
        have hne : a ≠ off := Nat.ne_of_lt halt
        refine ⟨ha4, halt, ?_, ?_⟩
        · rw [hdata, word_writeWord_other movn_length hbnd ho4 ha4 hne]
          exact hwa0
        · rw [hdata, word_writeWord_other movn_length hbnd ho4 ha4 hne]
          exact htgt
    · rw [hfound, List.map_append]
      refine List.pairwise_append.mpr ⟨hpw, ?_, ?_⟩
      · simp
      · intro x hx y hy
        simp only [List.map_cons, List.map_nil, List.mem_singleton] at hy
        obtain ⟨m, hm, rfl⟩ := List.mem_map.mp hx
        rw [hy]
        exact hlt m hm

theorem Inv_fold (data0 : List Nat) :
    ∀ (offs : List Nat) (s : ScanState), (∀ o ∈ offs, o % 4 = 0 ∧ 4 ≤ o) →
      offs.Pairwise (· < ·) → Inv data0 s →
      (∀ m ∈ s.found, ∀ o ∈ offs, m.trap < o) →
      Inv data0 (offs.foldl stepOffset s)
  | [], _, _, _, hinv, _ => hinv
  | o :: rest, s, ha, hp, hinv, hlt => by
    simp only [List.foldl_cons]
    obtain ⟨ho4, h4⟩ := ha o (List.mem_cons_self o rest)
    obtain ⟨hinv', hcases⟩ :=
      Inv_step hinv ho4 h4 fun m hm => hlt m hm o (List.mem_cons_self o rest)
    have hp' := List.pairwise_cons.mp hp
    apply Inv_fold data0 rest (stepOffset s o)
      (fun o' h' => ha o' (List.mem_cons_of_mem o h')) hp'.2 hinv'
    intro m hm o' ho'
    rcases hcases with he | ⟨mr, hmt, he⟩
    · rw [he] at hm
      exact hlt m hm o' (List.mem_cons_of_mem o ho')
    · rw [he] at hm
      rcases List.mem_append.mp hm with h | h
      · exact hlt m h o' (List.mem_cons_of_mem o ho')
      · have hmr : m = mr := by simpa using h
        rw [hmr, hmt]
        exact hp'.1 o' ho'

theorem patch_binary_Inv (data : List Nat) : Inv data (patch_binary data) := by
  unfold patch_binary
  apply Inv_fold data (offsets data.length) ⟨data, []⟩
  · intro o ho
    have h := mem_offsets.mp ho
    exact ⟨h.1, h.2.1⟩
  · exact pairwise_offsets data.length
  · exact ⟨rfl, fun i _ => rfl, fun o _ _ => rfl,
      fun m hm => absurd hm (List.not_mem_nil m),
      fun m hm => absurd hm (List.not_mem_nil m), by simp⟩
  · intro m hm
    cases hm

end InvLemmas

end Glibc

section BitHelpers

theorem unpackLE_packLE {n : Nat} (h : n < 4294967296) : unpackLE (packLE n) = n := by
  simp only [unpackLE, packLE, List.getD_cons_zero, List.getD_cons_succ]
  omega

theorem shiftRight_lor_distrib (a b n : Nat) : (a ||| b) >>> n = a >>> n ||| b >>> n := by
  apply Nat.eq_of_testBit_eq
  intro i
  simp [Nat.testBit_shiftRight, Nat.testBit_or]

theorem land_eq_land_mod {a : Nat} (b : Nat) {n : Nat} (h : a < 2 ^ n) :
    a &&& b = a &&& (b % 2 ^ n) := by
  apply Nat.eq_of_testBit_eq
  intro i
  rw [Nat.testBit_and, Nat.testBit_and, Nat.testBit_mod_two_pow]
  by_cases hi : i < n
  · simp [hi]
  · rw [Nat.testBit_lt_two_pow
      (lt_of_lt_of_le h (Nat.pow_le_pow_right (by norm_num) (by omega)))]
    simp [hi]

end BitHelpers

section VortekHelpers

theorem hasPrefix_length_le : ∀ {old l : List Nat}, Vortek.hasPrefix old l = true →
    old.length ≤ l.length
  | [], _, _ => by simp
  | _ :: _, [], h => by simp [Vortek.hasPrefix] at h
  | a :: as, b :: bs, h => by
    simp only [Vortek.hasPrefix, Bool.and_eq_true] at h
    have := hasPrefix_length_le h.2
    simp only [List.length_cons]
    omega

theorem bytesReplaceAux_length {old rep : List Nat} (hrep : rep.length = old.length) :
    ∀ (fuel : Nat) (l : List Nat), l.length ≤ fuel →
      (Vortek.bytesReplaceAux old rep fuel l).length = l.length
  | 0, _, _ => rfl
  | _ + 1, [], _ => rfl
  | fuel + 1, b :: rest, hf => by
    by_cases hc : (Vortek.hasPrefix old (b :: rest) && !old.isEmpty) = true
    · simp only [Vortek.bytesReplaceAux, if_pos hc, List.length_append, List.length_cons]
      have hand := Bool.and_eq_true_iff.mp hc
      have hple := hasPrefix_length_le hand.1
      have hlen1 : 1 ≤ old.length := by
        cases old with
        | nil => simp at hand
        | cons _ _ => simp
      rw [bytesReplaceAux_length hrep fuel (rest.drop (old.length - 1))
        (by simp only [List.length_drop, List.length_cons] at hf ⊢; omega)]
      simp only [List.length_drop]
      simp only [List.length_cons] at hple
      omega
    · simp only [Vortek.bytesReplaceAux, if_neg hc, List.length_cons]
      rw [bytesReplaceAux_length hrep fuel rest
        (by simp only [List.length_cons] at hf; omega)]

theorem bytesReplaceAux_count_zero {old rep : List Nat} :
    ∀ (fuel : Nat) (l : List Nat), Vortek.bytesCountAux old fuel l = 0 →
      Vortek.bytesReplaceAux old rep fuel l = l
  | 0, _, _ => rfl
  | _ + 1, [], _ => rfl
  | fuel + 1, b :: rest, h => by
    by_cases hc : (Vortek.hasPrefix old (b :: rest) && !old.isEmpty) = true
    · exfalso
      simp only [Vortek.bytesCountAux, if_pos hc] at h
      omega
    · simp only [Vortek.bytesCountAux, if_neg hc] at h
      simp only [Vortek.bytesReplaceAux, if_neg hc]
      rw [bytesReplaceAux_count_zero fuel rest h]

theorem bytesReplace_length {old rep data : List Nat} (hrep : rep.length = old.length) :
    (Vortek.bytesReplace old rep data).length = data.length :=
  bytesReplaceAux_length hrep data.length data (Nat.le_refl _)

end VortekHelpers

/-- C2: the claim says inserting any recognized branch-class instruction —
including RET, encoded 0xD65F03C0 — between anchor and trap yields zero
matches.  The source comment also says the check covers "b, bl, ret".  But
`insn >> 26` is a 6-bit value, so the listed 7-bit ret/br opcode 0x6B can
never match; a RET between anchor and trap is scanned through, and the
scanner produces one match, not zero. -/
theorem claim_C2_code_bug :
    unpackLE [0xC0, 0x03, 0x5F, 0xD6] = 0xD65F03C0 ∧
      (0xD65F03C0 : Nat) >>> 26 = 0x35 ∧
      (Glibc.patch_binary
        (Glibc.encode_movz_x8 99 ++ [0xC0, 0x03, 0x5F, 0xD6] ++ Glibc.SVC_0)).found =
        [⟨8, 0, 2, 99, "set_robust_list"⟩] := by
  decide

/-- C5: the instruction-patch transform is idempotent, and on an
already-patched buffer the scanner records zero matches: a second run
returns the same buffer with an empty match list. -/
theorem claim_C5_idempotent (data : List Nat) :
    Glibc.patch_binary ((Glibc.patch_binary data).data) =
      ⟨(Glibc.patch_binary data).data, []⟩ := by
  have hlen : ((Glibc.patch_binary data).data).length = data.length :=
    (Glibc.patch_binary_Inv data).1
  show (Glibc.offsets ((Glibc.patch_binary data).data).length).foldl Glibc.stepOffset
      ⟨(Glibc.patch_binary data).data, []⟩ = _
  rw [hlen]
  apply Glibc.foldl_noop
  intro o ho hsvc
  exact Glibc.final_scan_none (Glibc.offsets data.length)
    (fun o' h' => (mem_offsets.mp h').1) ⟨data, []⟩ o ho hsvc

/-- C6: the instruction patcher preserves buffer length, leaves every byte
outside the 4-byte words at matched trap offsets unchanged, writes exactly
the fail-with-ENOSYS word at each matched trap offset, and never modifies
anchor words. -/
theorem claim_C6_frame (data : List Nat) :
    ((Glibc.patch_binary data).data).length = data.length ∧
      (∀ i : Nat, (∀ m ∈ (Glibc.patch_binary data).found, i < m.trap ∨ m.trap + 4 ≤ i) →
        ((Glibc.patch_binary data).data)[i]? = data[i]?) ∧
      (∀ m ∈ (Glibc.patch_binary data).found,
        word (Glibc.patch_binary data).data m.trap = Glibc.MOVN_X0_37) ∧
      (∀ m ∈ (Glibc.patch_binary data).found,
        word (Glibc.patch_binary data).data m.anchor = word data m.anchor) := by
  obtain ⟨h1, h2, _, h4, h5, _⟩ := Glibc.patch_binary_Inv data
  exact ⟨h1, h2, fun m hm => (h4 m hm).2.2.2, fun m hm => (h5 m hm).2.2.1⟩

/-- C6 witness: the frame theorem instantiated on a concrete two-word
buffer whose single trap sits at offset 4. -/
theorem claim_C6_frame_witness :
    ((Glibc.patch_binary (Glibc.encode_movz_x8 99 ++ Glibc.SVC_0)).data).length =
        (Glibc.encode_movz_x8 99 ++ Glibc.SVC_0).length ∧
      ((Glibc.patch_binary (Glibc.encode_movz_x8 99 ++ Glibc.SVC_0)).data)[0]? =
        (Glibc.encode_movz_x8 99 ++ Glibc.SVC_0)[0]? :=
  ⟨(claim_C6_frame (Glibc.encode_movz_x8 99 ++ Glibc.SVC_0)).1,
    (claim_C6_frame (Glibc.encode_movz_x8 99 ++ Glibc.SVC_0)).2.1 0 (by decide)⟩

/-- C7 counterexample: one anchor followed by two consecutive traps yields
two matches that share anchor offset 0, refuting the claim that no two
matches produced by one scan share the same anchor offset. -/
theorem claim_C7_counterexample :
    ((Glibc.patch_binary (Glibc.encode_movz_x8 99 ++ Glibc.SVC_0 ++ Glibc.SVC_0)).found).map
        Glibc.MatchRecord.anchor = [0, 0] ∧
      ((Glibc.patch_binary (Glibc.encode_movz_x8 99 ++ Glibc.SVC_0 ++ Glibc.SVC_0)).found).length
        = 2 := by
  decide

/-- C7 amended: trap offsets of the matches of one scan are strictly
increasing (each trap is consumed at most once); anchors, however, may be
shared by several traps, as the counterexample shows. -/
theorem claim_C7_amended (data : List Nat) :
    (((Glibc.patch_binary data).found).map Glibc.MatchRecord.trap).Pairwise (· < ·) :=
  (Glibc.patch_binary_Inv data).2.2.2.2.2

/-- C8: on zero matches the tool reports a no-op and leaves both the file
and any backup path exactly as they were. -/
theorem claim_C8_noop (fs : FileState) (h : (Glibc.patch_binary fs.main).found.length = 0) :
    Glibc.patch_file fs = (fs, false) := by
  unfold Glibc.patch_file
  rw [if_pos h]

/-- C8 witness: a buffer with no trap instruction is left untouched. -/
theorem claim_C8_noop_witness :
    Glibc.patch_file ⟨[0, 0, 0, 0, 0, 0, 0, 0], none⟩ =
      (⟨[0, 0, 0, 0, 0, 0, 0, 0], none⟩, false) :=
  claim_C8_noop ⟨[0, 0, 0, 0, 0, 0, 0, 0], none⟩ (by decide)

/-- C3 counterexample: when the byte string to replace does not occur in
the buffer, the substring patcher returns normally (the occurrence count
is checked before the length precondition), even though the replacement is
strictly longer — it does not abort as the claim requires. -/
theorem claim_C3_counterexample :
    ([0] : List Nat).length < ([0, 0] : List Nat).length ∧
      Vortek.patch_binary [] [0] [0, 0] = some [] := by
  decide

/-- C3 amended: when the pattern occurs at least once and the replacement
is strictly longer, the substring patcher exits before any byte is
written (modelled by `none`), so the file on disk is unchanged. -/
theorem claim_C3_amended (data old new : List Nat) (hocc : 0 < Vortek.bytesCount old data)
    (hlen : old.length < new.length) : Vortek.patch_binary data old new = none := by
  unfold Vortek.patch_binary
  rw [if_neg (by omega), if_pos hlen]

/-- C3 witness: a one-byte buffer equal to the pattern, with a two-byte
replacement, makes the patcher exit. -/
theorem claim_C3_amended_witness : Vortek.patch_binary [7] [7] [1, 2] = none :=
  claim_C3_amended [7] [7] [1, 2] (by decide) (by decide)

/-- C4 counterexample: the substring path patcher overwrites its input
with changed bytes yet never creates any backup: after patching a buffer
equal to the old socket path, the `.orig` slot is still absent. -/
theorem claim_C4_counterexample :
    Vortek.patch_file ⟨Vortek.OLD_SOCKET, none⟩ =
        some ⟨Vortek.NEW_SOCKET ++ List.replicate 11 0, none⟩ ∧
      Vortek.NEW_SOCKET ++ List.replicate 11 0 ≠ Vortek.OLD_SOCKET := by
  decide

/-- C4 amended: only the instruction patcher maintains backups: it never
overwrites an existing backup, and when it mutates a file with no backup
it creates one holding the pre-patch bytes; the substring patcher never
creates or modifies a backup at all. -/
theorem claim_C4_amended :
    (∀ (fs : FileState) (b : List Nat), fs.backup = some b →
        ((Glibc.patch_file fs).1).backup = some b) ∧
      (∀ fs : FileState, fs.backup = none → (Glibc.patch_file fs).2 = true →
        ((Glibc.patch_file fs).1).backup = some fs.main) ∧
      (∀ fs fs' : FileState, Vortek.patch_file fs = some fs' → fs'.backup = fs.backup) := by
  refine ⟨?_, ?_, ?_⟩
  · intro fs b hb
    unfold Glibc.patch_file
    by_cases hz : (Glibc.patch_binary fs.main).found.length = 0
    · rw [if_pos hz]
      exact hb
    · rw [if_neg hz, hb]
  · intro fs hn htrue
    unfold Glibc.patch_file at htrue ⊢
    by_cases hz : (Glibc.patch_binary fs.main).found.length = 0
    · rw [if_pos hz] at htrue
      simp at htrue
    · rw [if_neg hz, hn]
  · intro fs fs' hpf
    unfold Vortek.patch_file at hpf
    split at hpf
    · cases hpf
    · split at hpf
      · cases hpf
      · cases hpf
        rfl

/-- C4 witness: the amended statement applied at concrete file states. -/
theorem claim_C4_amended_witness :
    ((Glibc.patch_file ⟨[], some [1]⟩).1).backup = some [1] ∧
      ((Glibc.patch_file ⟨Glibc.encode_movz_x8 99 ++ Glibc.SVC_0, none⟩).1).backup =
        some (Glibc.encode_movz_x8 99 ++ Glibc.SVC_0) ∧
      (⟨Vortek.NEW_SOCKET ++ List.replicate 11 0, none⟩ : FileState).backup =
        (⟨Vortek.OLD_SOCKET, none⟩ : FileState).backup :=
  ⟨claim_C4_amended.1 ⟨[], some [1]⟩ [1] rfl,
    claim_C4_amended.2.1 ⟨Glibc.encode_movz_x8 99 ++ Glibc.SVC_0, none⟩ rfl (by decide),
    claim_C4_amended.2.2 ⟨Vortek.OLD_SOCKET, none⟩ ⟨Vortek.NEW_SOCKET ++ List.replicate 11 0, none⟩
      (by decide)⟩

/-- C9: with a non-empty pattern and a replacement no longer than it, the
substring patcher returns the buffer with every non-overlapping occurrence
of the pattern replaced by the null-padded replacement, and the output
length equals the input length. -/
theorem claim_C9_replace (data old new : List Nat) (_hne : old ≠ [])
    (hlen : new.length ≤ old.length) :
    Vortek.patch_binary data old new =
        some (Vortek.bytesReplace old (new ++ List.replicate (old.length - new.length) 0) data) ∧
      (Vortek.bytesReplace old (new ++ List.replicate (old.length - new.length) 0) data).length =
        data.length := by
  have hrep : (new ++ List.replicate (old.length - new.length) 0).length = old.length := by
    simp
    omega
  refine ⟨?_, bytesReplace_length hrep⟩
  unfold Vortek.patch_binary
  by_cases hz : Vortek.bytesCount old data = 0
  · rw [if_pos hz]
    exact congrArg some (bytesReplaceAux_count_zero data.length data hz).symm
  · rw [if_neg hz, if_neg (by omega)]

/-- C9 witness: replacing `[1]` by the empty string (padded to one null)
in `[1, 2]`. -/
theorem claim_C9_replace_witness :
    Vortek.patch_binary [1, 2] [1] [] =
        some (Vortek.bytesReplace [1]
          ([] ++ List.replicate (([1] : List Nat).length - ([] : List Nat).length) 0) [1, 2]) ∧
      (Vortek.bytesReplace [1]
          ([] ++ List.replicate (([1] : List Nat).length - ([] : List Nat).length) 0)
          [1, 2]).length = ([1, 2] : List Nat).length :=
  claim_C9_replace [1, 2] [1] [] (by decide) (by decide)

/-- C10: for every 16-bit immediate, the word built by `encode_movz_x8`
passes the scanner's generic register-8 load mask test and carries the
immediate recoverably in bits 5..20; hence every anchor pattern built from
the syscall table also matches the different-load sentinel mask, and only
the ordering of the checks (target lookup before the sentinel test) makes
target anchors match rather than stop the backward search. -/
theorem claim_C10_encode (imm16 : Nat) (h : imm16 < 65536) :
    unpackLE (Glibc.encode_movz_x8 imm16) &&& 0xFFE0001F = 0xD2800008 ∧
      unpackLE (Glibc.encode_movz_x8 imm16) >>> 5 &&& 0xFFFF = imm16 := by
  have hb : (0b11010010100 <<< 21 : Nat) ||| imm16 <<< 5 ||| 8 < 4294967296 := by
    have h2p : (0b11010010100 <<< 21 : Nat) ||| imm16 <<< 5 ||| 8 < 2 ^ 32 := by
      apply Nat.lt_pow_two_of_testBit
      intro i hi
      simp only [Nat.testBit_or, Nat.testBit_shiftLeft]
      have h1 : Nat.testBit 0b11010010100 (i - 21) = false := by
        apply Nat.testBit_lt_two_pow
        have hp : (2 : Nat) ^ 11 ≤ 2 ^ (i - 21) := Nat.pow_le_pow_right (by norm_num) (by omega)
        norm_num at hp
        omega
      have h2 : Nat.testBit imm16 (i - 5) = false := by
        apply Nat.testBit_lt_two_pow
        have hp : (2 : Nat) ^ 16 ≤ 2 ^ (i - 5) := Nat.pow_le_pow_right (by norm_num) (by omega)
        norm_num at hp
        omega
      have h3 : Nat.testBit 8 i = false := by
        apply Nat.testBit_lt_two_pow
        have hp : (2 : Nat) ^ 4 ≤ 2 ^ i := Nat.pow_le_pow_right (by norm_num) (by omega)
        norm_num at hp
        omega
      simp [h1, h2, h3]
    norm_num at h2p
    exact h2p
  have hrt : unpackLE (packLE ((0b11010010100 <<< 21 : Nat) ||| imm16 <<< 5 ||| 8)) =
      (0b11010010100 <<< 21 : Nat) ||| imm16 <<< 5 ||| 8 := unpackLE_packLE hb
  have h21 : imm16 <<< 5 < 2 ^ 21 := by
    rw [Nat.shiftLeft_eq]
    norm_num
    omega
  have hzero : imm16 <<< 5 &&& 0xFFE0001F = 0 := by
    rw [(by decide : (0xFFE0001F : Nat) = 0xFFE00000 ||| 0x1F), Nat.and_or_distrib_left]
    have e1 : imm16 <<< 5 &&& 0xFFE00000 = 0 := by
      rw [land_eq_land_mod 0xFFE00000 h21,
        (by norm_num : (0xFFE00000 : Nat) % 2 ^ 21 = 0), Nat.and_zero]
    have e2 : imm16 <<< 5 &&& 0x1F = 0 := by
      rw [(by norm_num : (0x1F : Nat) = 2 ^ 5 - 1), Nat.and_pow_two_sub_one_eq_mod,
        Nat.shiftLeft_eq, Nat.mul_mod_left]
    rw [e1, e2]
    decide
  unfold Glibc.encode_movz_x8
  rw [hrt]
  constructor
  · rw [Nat.and_distrib_right, Nat.and_distrib_right, hzero]
    rw [(by decide : (0b11010010100 <<< 21 : Nat) &&& 0xFFE0001F = 0xD2800000),
      (by decide : (8 : Nat) &&& 0xFFE0001F = 8)]
    decide
  · rw [shiftRight_lor_distrib, shiftRight_lor_distrib, Nat.shiftLeft_shiftRight]
    rw [Nat.and_distrib_right, Nat.and_distrib_right]
    rw [(by decide : (0b11010010100 <<< 21 : Nat) >>> 5 &&& 0xFFFF = 0),
      (by decide : (8 : Nat) >>> 5 &&& 0xFFFF = 0)]
    rw [(by norm_num : (0xFFFF : Nat) = 2 ^ 16 - 1), Nat.and_pow_two_sub_one_eq_mod]
    rw [Nat.mod_eq_of_lt (show imm16 < 2 ^ 16 by norm_num; omega)]
    simp

/-- C10 witness: the encode/mask law at the table value 99. -/
theorem claim_C10_encode_witness :
    unpackLE (Glibc.encode_movz_x8 99) &&& 0xFFE0001F = 0xD2800008 ∧
      unpackLE (Glibc.encode_movz_x8 99) >>> 5 &&& 0xFFFF = 99 :=
  claim_C10_encode 99 (by norm_num)

section CorrelationLemmas

theorem foldl_skip (offs : List Nat) (s : Glibc.ScanState)
    (h : ∀ o ∈ offs, word s.data o ≠ Glibc.SVC_0) :
    offs.foldl Glibc.stepOffset s = s := by
  induction offs with
  | nil => rfl
  | cons o rest ih =>
    have hs : Glibc.stepOffset s o = s := by
      unfold Glibc.stepOffset
      rw [if_neg (h o (List.mem_cons_self o rest))]
    simp only [List.foldl_cons, hs]
    exact ih fun o' ho' => h o' (List.mem_cons_of_mem o ho')

theorem offsets_eq (k : Nat) : Glibc.offsets (4 * k + 8) = List.range' 4 (k + 1) 4 := by
  unfold Glibc.offsets
  congr 1
  omega

theorem flatten_length_of_four : ∀ (ws : List (List Nat)), (∀ w ∈ ws, w.length = 4) →
    ws.flatten.length = 4 * ws.length
  | [], _ => rfl
  | w :: ws', hl => by
    rw [List.flatten_cons, List.length_append,
      flatten_length_of_four ws' (fun w' h' => hl w' (List.mem_cons_of_mem w h')),
      hl w (List.mem_cons_self w ws'), List.length_cons]
    omega

theorem word_flat : ∀ (ws : List (List Nat)) (pre post : List Nat) (i : Nat)
    (hi : i < ws.length), (∀ w ∈ ws, w.length = 4) →
    word (pre ++ ws.flatten ++ post) (pre.length + 4 * i) = ws.get ⟨i, hi⟩
  | [], _, _, i, hi, _ => absurd hi (by simp)
  | w :: ws', pre, post, 0, hi, hl => by
    have hw4 : w.length = 4 := hl w (List.mem_cons_self w ws')
    rw [List.flatten_cons, Nat.mul_zero, Nat.add_zero, List.append_assoc, word_append_right,
      List.append_assoc, List.take_left' hw4]
    rfl
  | w :: ws', pre, post, i + 1, hi, hl => by
    have hw4 : w.length = 4 := hl w (List.mem_cons_self w ws')
    have heq : pre ++ (w :: ws').flatten ++ post = (pre ++ w) ++ ws'.flatten ++ post := by
      rw [List.flatten_cons]
      simp only [List.append_assoc]
    have hoff : pre.length + 4 * (i + 1) = (pre ++ w).length + 4 * i := by
      simp only [List.length_append, hw4]
      omega
    have hi' : i < ws'.length := by
      simp only [List.length_cons] at hi
      omega
    rw [heq, hoff,
      word_flat ws' (pre ++ w) post i hi' (fun w' h' => hl w' (List.mem_cons_of_mem w h'))]
    rfl

end CorrelationLemmas

/-- C1 counterexample: an anchor loading 99, then 16 filler words (all
zero words, which are neither branches nor loads), then `svc #0`.  The
anchor lies 17 lookback steps before the trap, one beyond the 16-step
limit, so the scanner produces zero matches where the claim requires
exactly one for every gap from 1 to 16. -/
theorem claim_C1_counterexample :
    (Glibc.patch_binary (Glibc.encode_movz_x8 99 ++
      (List.replicate 16 ([0, 0, 0, 0] : List Nat)).flatten ++ Glibc.SVC_0)).found = [] := by
  decide

/-- C1 amended: for a buffer consisting of the load-immediate-into-
register-8 encoding of 99, then 1 to 15 four-byte filler words — none of
which is the trap word, a word matching the scanner's register-8 load mask
(of any immediate), or a recognized branch — then `svc #0`, the scanner
produces exactly one match, correlating that trap (offset `4*k+4`) with
that anchor (offset 0). -/
theorem claim_C1_amended (ws : List (List Nat)) (h1 : 1 ≤ ws.length) (h15 : ws.length ≤ 15)
    (hw : ∀ w ∈ ws, w.length = 4 ∧ w ≠ Glibc.SVC_0 ∧
      unpackLE w &&& 0xFFE0001F ≠ 0xD2800008 ∧
      unpackLE w >>> 26 ≠ 0x05 ∧ unpackLE w >>> 26 ≠ 0x25 ∧ unpackLE w >>> 26 ≠ 0x6B) :
    (Glibc.patch_binary (Glibc.encode_movz_x8 99 ++ ws.flatten ++ Glibc.SVC_0)).found =
      [⟨4 * ws.length + 4, 0, ws.length + 1, 99, "set_robust_list"⟩] := by
  have hws4 : ∀ w ∈ ws, w.length = 4 := fun w h => (hw w h).1
  set B := Glibc.encode_movz_x8 99 ++ ws.flatten ++ Glibc.SVC_0 with hB
  have hlenB : B.length = 4 * ws.length + 8 := by
    rw [hB, List.length_append, List.length_append, flatten_length_of_four ws hws4,
      (by decide : (Glibc.encode_movz_x8 99).length = 4), (by decide : Glibc.SVC_0.length = 4)]
    omega
  have hflat : ∀ (i : Nat) (hi : i < ws.length), word B (4 + 4 * i) = ws.get ⟨i, hi⟩ := by
    intro i hi
    have hfw := word_flat ws (Glibc.encode_movz_x8 99) Glibc.SVC_0 i hi hws4
    rw [(by decide : (Glibc.encode_movz_x8 99).length = 4)] at hfw
    rw [hB]
    exact hfw
  have hskip : ∀ o ∈ List.range' 4 ws.length 4, word B o ≠ Glibc.SVC_0 := by
    intro o ho
    obtain ⟨i, hi, rfl⟩ := List.mem_range'.mp ho
    rw [hflat i hi]
    exact (hw (ws.get ⟨i, hi⟩) (List.get_mem ws i hi)).2.1
  have hsvc : word B (4 + 4 * ws.length) = Glibc.SVC_0 := by
    have hpl : (Glibc.encode_movz_x8 99 ++ ws.flatten).length = 4 + 4 * ws.length := by
      rw [List.length_append, flatten_length_of_four ws hws4,
        (by decide : (Glibc.encode_movz_x8 99).length = 4)]
    rw [hB, ← hpl, word_append_right]
    decide
  have hw0 : word B 0 = Glibc.encode_movz_x8 99 := by
    rw [hB, word, List.drop_zero, List.append_assoc,
      List.take_left' (by decide : (Glibc.encode_movz_x8 99).length = 4)]
  have hchain : ∀ j, j ≤ ws.length → Glibc.scanBack B (4 + 4 * ws.length) 1 16 =
      Glibc.scanBack B (4 + 4 * ws.length) (j + 1) (16 - j) := by
    intro j
    induction j with
    | zero => intro _; rfl
    | succ j ihj =>
      intro hj
      rw [ihj (by omega)]
      rw [(by omega : 16 - j = (16 - (j + 1)) + 1)]
      have hidx : 4 + 4 * ws.length - (j + 1) * 4 = 4 + 4 * (ws.length - j - 1) := by omega
      have hflt := hflat (ws.length - j - 1) (by omega)
      have hcond := hw (ws.get ⟨ws.length - j - 1, by omega⟩)
        (List.get_mem ws (ws.length - j - 1) (by omega))
      refine Glibc.scanBack_step (by omega) ?_ ?_ ?_
      · rw [hidx, hflt]
        exact Glibc.lookupTarget_none_of_mask hcond.2.2.1
      · rw [hidx, hflt]
        exact hcond.2.2.1
      · rw [hidx, hflt]
        intro hor
        rcases hor with hx | hx | hx
        · exact hcond.2.2.2.1 hx
        · exact hcond.2.2.2.2.1 hx
        · exact hcond.2.2.2.2.2 hx
  have hid0 : 4 + 4 * ws.length - (ws.length + 1) * 4 = 0 := by omega
  have hscan : Glibc.scanBack B (4 + 4 * ws.length) 1 16 =
      some (0, ws.length + 1, 99, "set_robust_list") := by
    rw [hchain ws.length (Nat.le_refl _)]
    rw [(by omega : 16 - ws.length = (15 - ws.length) + 1)]
    rw [Glibc.scanBack_hit (by omega) (by rw [hid0, hw0]; exact Glibc.lookupTarget_e99), hid0]
  show ((Glibc.offsets B.length).foldl Glibc.stepOffset ⟨B, []⟩).found = _
  rw [hlenB, offsets_eq, List.range'_concat, List.foldl_append,
    foldl_skip (List.range' 4 ws.length 4) ⟨B, []⟩ hskip]
  simp only [List.foldl_cons, List.foldl_nil]
  unfold Glibc.stepOffset
  rw [if_pos hsvc, hscan]
  simp only [List.nil_append]
  rw [(by omega : 4 + 4 * ws.length = 4 * ws.length + 4)]

/-- C1 witness: one zero filler word between the anchor for 99 and the
trap gives the single match (trap 8, anchor 0, distance 2). -/
theorem claim_C1_amended_witness :
    (Glibc.patch_binary (Glibc.encode_movz_x8 99 ++
        ([[0, 0, 0, 0]] : List (List Nat)).flatten ++ Glibc.SVC_0)).found =
      [⟨4 * ([[0, 0, 0, 0]] : List (List Nat)).length + 4, 0,
        ([[0, 0, 0, 0]] : List (List Nat)).length + 1, 99, "set_robust_list"⟩] :=
  claim_C1_amended [[0, 0, 0, 0]] (by decide) (by decide) (by decide)
